import Mathlib

/-!
Verification of the chapter conversion pipeline of the `convertisseur`
PDF-to-audiobook application (sources: `src/hooks/usePdfParser.ts`,
`src/App.tsx`, `src/utils/audio.ts`).

The development shallowly embeds the relevant TypeScript functions as
executable Lean definitions (JS strings become `List Char`, JS numbers
of the integral values in play become `Nat`/`Int`, float samples become
`ℚ`, byte buffers become `List Nat`) and proves the specified
properties about them.
-/

namespace Convertisseur

/-! ### Data model: chapter status, audio buffers, chapters -/

/-- The `status` field of a `Chapter` in `usePdfParser.ts`:
`'pending' | 'converting' | 'ready' | 'error'`. -/
inductive Status where
  | pending
  | converting
  | ready
  | error
deriving DecidableEq, Repr

/-- Web Audio `AudioBuffer`: channel count, frame count, sample rate and
per-channel float sample data (floats modelled as `ℚ`). -/
structure AudioBuffer where
  numberOfChannels : Nat
  frameCount : Nat
  sampleRate : Nat
  channelData : List (List ℚ)
deriving DecidableEq, Repr

/-- `AudioContext.createBuffer(channels, length, rate)`: a zero-filled
buffer (Web Audio buffers start out silent). -/
def createBuffer (channels frames rate : Nat) : AudioBuffer :=
  { numberOfChannels := channels
    frameCount := frames
    sampleRate := rate
    channelData := List.replicate channels (List.replicate frames 0) }

/-- `AudioBuffer.duration` = frame count / sample rate (seconds). -/
def AudioBuffer.duration (b : AudioBuffer) : ℚ :=
  (b.frameCount : ℚ) / (b.sampleRate : ℚ)

/-- The `Chapter` interface of `usePdfParser.ts`.  `id` is the
`crypto.randomUUID()` string; optional fields are `Option`s. -/
structure Chapter where
  id : String
  title : String
  pageNumber : Nat
  endPageNumber : Nat
  status : Status
  audioBuffer : Option AudioBuffer := none
  chError : Option String := none
  progress : Option Int := none
  duration : Option ℚ := none
deriving DecidableEq, Repr

/-- A default `Chapter`, used only as the fallback value of `List.getD`. -/
def chapterDefault : Chapter :=
  { id := "", title := "", pageNumber := 0, endPageNumber := 0, status := .pending }

/-- A sample freshly-created chapter, used only in concrete instances. -/
def sampleChapter : Chapter :=
  { id := "x", title := "t", pageNumber := 1, endPageNumber := 3, status := .pending }

/-! ### Chunker (`convertChapter`, sentence regex + greedy accumulation)

The source splits the chapter text with
`text.match(/[^.!?]+[.!?]*/g) || [text]` and then greedily packs the
sentences into chunks of at most `TEXT_CHUNK_SIZE` characters.  The
regex scan is embedded as a single structural pass `sentGo`:

* a match of `[^.!?]+[.!?]*` is a nonempty run of non-terminator
  characters followed by a (maximal) run of terminators;
* characters before the first non-terminator character (a leading run
  of terminators) belong to no match and are skipped;
* `match` returns `null` (so the code falls back to `[text]`) exactly
  when the text contains no non-terminator character. -/

/-- Sentence-terminator characters of the splitting regex. -/
def isTerm (c : Char) : Bool := c = '.' || c = '!' || c = '?'

/-- One left-to-right scan of the global regex `[^.!?]+[.!?]*`.
`cur` is the reversed accumulator of the current match, `inTerm` records
whether the current match has entered its trailing-terminator run. -/
def sentGo : List Char → List Char → Bool → List (List Char)
  | [], [], _ => []
  | [], cur, _ => [cur.reverse]
  | c :: rest, [], b =>
    if isTerm c then sentGo rest [] b else sentGo rest [c] false
  | c :: rest, cur, false =>
    if isTerm c then sentGo rest (c :: cur) true else sentGo rest (c :: cur) false
  | c :: rest, cur, true =>
    if isTerm c then sentGo rest (c :: cur) true
    else cur.reverse :: sentGo rest [c] false

/-- All matches of `text.match(/[^.!?]+[.!?]*/g)` in order. -/
def sentSplit (text : List Char) : List (List Char) := sentGo text [] false

/-- `text.match(...) || [text]`: the `null` fallback yields `[text]`. -/
def sentences (text : List Char) : List (List Char) :=
  if sentSplit text = [] then [text] else sentSplit text

/-- `const TEXT_CHUNK_SIZE = 4000` — character limit for TTS calls. -/
def TEXT_CHUNK_SIZE : Nat := 4000

/-- The greedy accumulation loop of `convertChapter`:
if `(currentChunk + sentence).length > limit` push `currentChunk` and
restart from `sentence`, else append; finally push a nonempty
`currentChunk`. -/
def chunkAux (limit : Nat) : List Char → List (List Char) → List (List Char)
  | cur, [] => if cur = [] then [] else [cur]
  | cur, s :: rest =>
    if limit < (cur ++ s).length then cur :: chunkAux limit s rest
    else chunkAux limit (cur ++ s) rest

/-- The chunk sequence produced for `text` under character limit
`limit` (the source fixes `limit := TEXT_CHUNK_SIZE`). -/
def chunkText (limit : Nat) (text : List Char) : List (List Char) :=
  chunkAux limit [] (sentences text)

/-! ### OutlineResolver (`processOutline` and `setupChapters`)

`processOutline` flattens the nested outline depth-first (current entry
first, then its children, then the following entries), keeping entries
whose destination resolves; a resolved destination contributes
`pageNumber = pageIndex + 1`.  `setupChapters` then assigns
`endPageNumber` from the next entry (or `pdf.numPages` for the last)
and filters out chapters with `pageNumber > endPageNumber`. -/

/-- A raw outline entry: title, the resolved 0-based page index of its
destination (`none` when the destination is absent or fails to
resolve), and nested sub-entries. -/
inductive OutlineItem where
  | mk (title : String) (pageIndex : Option Nat) (items : List OutlineItem)

/-- `processOutline`: depth-first flattening with resolved 1-based page
numbers; unresolvable entries are skipped. -/
def processOutline : List OutlineItem → List (String × Nat)
  | [] => []
  | .mk t pg items :: rest =>
    (match pg with
     | some idx => [(t, idx + 1)]
     | none => []) ++ (processOutline items ++ processOutline rest)

/-- The `endPageNumber` computed for index `i` of the flattened list:
`pageNumber(i+1) - 1`, or `numPages` for the final entry. -/
def endPageAt (processed : List (String × Nat)) (numPages i : Nat) : Nat :=
  match processed[i + 1]? with
  | some q => q.2 - 1
  | none => numPages

/-- The chapter list of `setupChapters` before the final filter. -/
def preChapterList (processed : List (String × Nat)) (numPages : Nat)
    (ids : List String) : List Chapter :=
  (List.range processed.length).map (fun i =>
    { id := ids.getD i ""
      title := (processed.getD i ("", 0)).1
      pageNumber := (processed.getD i ("", 0)).2
      endPageNumber := endPageAt processed numPages i
      status := .pending })

/-- The chapter list of `setupChapters`:
`.filter(ch => ch.pageNumber <= ch.endPageNumber)`. -/
def chapterList (processed : List (String × Nat)) (numPages : Nat)
    (ids : List String) : List Chapter :=
  (preChapterList processed numPages ids).filter
    (fun ch => decide (ch.pageNumber ≤ ch.endPageNumber))

/-! ### ChapterConversionOrchestrator (`convertChapter`)

One conversion attempt is a fixed sequence of `setChapters` updates,
each of the shape `prev.map(c => c.id === chapter.id ? {...c, ...} : c)`:
first the `converting` reset, then (on the chunked path) one progress
update per successfully completed chunk, then a final `ready`/`error`
update.  The attempt's interaction with the outside world — the
`getTextForPageRange` result and each chunk's synthesis/decode
outcome — is abstracted as an environment `AttemptEnv`.  (The early
return when the pdf/ai/audio-context refs are unset is not modelled:
the refs are initialised before any chapter exists.) -/

/-- JS `String.prototype.trim` whitespace; `!text.trim()` holds exactly
when every character of `text` is whitespace. -/
def isJsWhitespace (c : Char) : Bool :=
  [9, 10, 11, 12, 13, 32, 160, 0x1680, 0x2000, 0x2001, 0x2002, 0x2003, 0x2004,
   0x2005, 0x2006, 0x2007, 0x2008, 0x2009, 0x200A, 0x2028, 0x2029, 0x202F,
   0x205F, 0x3000, 0xFEFF].contains c.toNat

/-- `Math.round(((i + 1) / textChunks.length) * 100)` with
`completed = i + 1`, `total = textChunks.length`
(`Math.round x = ⌊x + 1/2⌋`). -/
def roundPct (completed total : Nat) : Int :=
  ⌊((completed : ℚ) / (total : ℚ)) * 100 + 1 / 2⌋

/-- `concatAudioBuffers` (`src/utils/audio.ts`): zero inputs give a
one-frame buffer at the context rate, one input is returned unchanged,
otherwise per-channel data is copied in input order into a buffer of
the summed length (the source copies at accumulated offsets; for the
uniform well-formed buffers the precondition demands, that is
per-channel concatenation). -/
def concatAudioBuffers (bufs : List AudioBuffer) (ctxRate : Nat) : AudioBuffer :=
  match bufs with
  | [] => createBuffer 1 1 ctxRate
  | [b] => b
  | b :: _ =>
    { numberOfChannels := b.numberOfChannels
      frameCount := (bufs.map (fun x => x.frameCount)).sum
      sampleRate := b.sampleRate
      channelData := (List.range b.numberOfChannels).map
        (fun ch => (bufs.map (fun x => x.channelData.getD ch [])).flatten) }

/-- Outcome of one chunk's synthesis-plus-decode step: the decoded
buffer, or a failure (missing audio payload, API rejection, or decode
error) carrying its message. -/
inductive ChunkOutcome where
  | ok (buf : AudioBuffer)
  | fail (msg : String)

/-- Environment of one conversion attempt: the `getTextForPageRange`
outcome (`Except.error` = the call threw) and each chunk's outcome by
chunk index. -/
structure AttemptEnv where
  extraction : Except String (List Char)
  outcomes : Nat → ChunkOutcome

/-- The sequential chunk loop of `convertChapter`, started at chunk
index `i`: returns the progress values written after each completed
chunk, the chunks actually submitted to synthesis (in order), and
either the accumulated decoded buffers or the first failure. -/
def runChunks (outcomes : Nat → ChunkOutcome) (total : Nat) :
    List (List Char) → Nat →
      List Int × List (List Char) × Except String (List AudioBuffer)
  | [], _ => ([], [], .ok [])
  | c :: rest, i =>
    match outcomes i with
    | .fail m => ([], [c], .error m)
    | .ok b =>
      match runChunks outcomes total rest (i + 1) with
      | (ps, reqs, .ok bs) =>
        (roundPct (i + 1) total :: ps, c :: reqs, .ok (b :: bs))
      | (ps, reqs, .error m) =>
        (roundPct (i + 1) total :: ps, c :: reqs, .error m)

/-- How one attempt ends: the catch-all `error` update, the empty-text
`ready` short-circuit, or the full `ready` update with the concatenated
buffer. -/
inductive AttemptFinal where
  | failed (msg : String)
  | readyEmpty
  | readyFull (b : AudioBuffer)

/-- The complete script of one attempt: progress values, submitted
synthesis requests, and the final update. -/
def attemptScript (env : AttemptEnv) :
    List Int × List (List Char) × AttemptFinal :=
  match env.extraction with
  | .error m => ([], [], .failed m)
  | .ok text =>
    if text.all isJsWhitespace then ([], [], .readyEmpty)
    else
      match runChunks env.outcomes (chunkText TEXT_CHUNK_SIZE text).length
          (chunkText TEXT_CHUNK_SIZE text) 0 with
      | (ps, reqs, .ok bufs) => (ps, reqs, .readyFull (concatAudioBuffers bufs 24000))
      | (ps, reqs, .error m) => (ps, reqs, .failed m)

/-- Progress values written by the attempt, in order. -/
def attemptProgs (env : AttemptEnv) : List Int := (attemptScript env).1

/-- Chunks submitted to the synthesis backend by the attempt, in order. -/
def attemptRequests (env : AttemptEnv) : List (List Char) := (attemptScript env).2.1

/-- The attempt's final update. -/
def attemptFinal (env : AttemptEnv) : AttemptFinal := (attemptScript env).2.2

/-- `{ ...c, status: 'converting', progress: 0, error: undefined }`. -/
def toConverting (c : Chapter) : Chapter :=
  { c with status := .converting, progress := some 0, chError := none }

/-- `{ ...c, progress: Math.round(((i+1)/textChunks.length)*100) }`. -/
def setProgress (p : Int) (c : Chapter) : Chapter := { c with progress := some p }

/-- The final update of an attempt: `{ ...c, status: 'error', error: msg }`,
or the empty-text `{ ...c, status: 'ready', audioBuffer: ctx.createBuffer(1,1,24000), duration: 0 }`,
or `{ ...c, status: 'ready', audioBuffer: finalBuffer, duration: finalBuffer.duration }`. -/
def applyFinal : AttemptFinal → Chapter → Chapter
  | .failed m, c => { c with status := .error, chError := some m }
  | .readyEmpty, c =>
    { c with status := .ready, audioBuffer := some (createBuffer 1 1 24000)
             duration := some 0 }
  | .readyFull b, c =>
    { c with status := .ready, audioBuffer := some b, duration := some b.duration }

/-- The ordered list of `setChapters` updates issued by one attempt. -/
def attemptUpdates (env : AttemptEnv) : List (Chapter → Chapter) :=
  toConverting :: ((attemptProgs env).map setProgress ++ [applyFinal (attemptFinal env)])

/-- The net effect of one attempt on its target chapter. -/
def applyAttempt (env : AttemptEnv) (c : Chapter) : Chapter :=
  (attemptUpdates env).foldl (fun x u => u x) c

/-- Every state the target chapter passes through during one attempt,
initial state included. -/
def attemptStates (env : AttemptEnv) (c : Chapter) : List Chapter :=
  (attemptUpdates env).scanl (fun x u => u x) c

/-- The target chapter's `progress` field along `attemptStates`. -/
def progressTrace (env : AttemptEnv) (c : Chapter) : List (Option Int) :=
  (attemptStates env c).map (fun x => x.progress)

/-- One `setChapters(prev => prev.map(c => c.id === chapter.id ? f c : c))`. -/
def updateChapter (st : List Chapter) (cid : String) (f : Chapter → Chapter) :
    List Chapter :=
  st.map (fun c => if c.id = cid then f c else c)

/-- `convertChapter` as a state transformer: the attempt's updates
applied in order to the chapter list, each targeting the chapter with
id `cid`. -/
def convertChapter (env : AttemptEnv) (st : List Chapter) (cid : String) :
    List Chapter :=
  (attemptUpdates env).foldl (fun s u => updateChapter s cid u) st

/-- The value `ps.foldl (fun _ p => some p) o`: the last progress value
written, if any. -/
def midProgress (ps : List Int) (o : Option Int) : Option Int :=
  ps.foldl (fun _ p => some p) o

/-- The states of the per-chapter conversion state machine reachable
from chapter-list creation by complete conversion attempts.  Attempts
are issued only for `pending` or `error` chapters: the bulk scheduler
skips `ready`/`converting` chapters and the retry affordance is only
rendered for `error` chapters. -/
inductive Reachable : List Chapter → Prop where
  | init (processed : List (String × Nat)) (numPages : Nat) (ids : List String) :
      Reachable (chapterList processed numPages ids)
  | step (st : List Chapter) (cid : String) (env : AttemptEnv) :
      Reachable st →
      (∀ c ∈ st, c.id = cid → c.status = .pending ∨ c.status = .error) →
      Reachable (convertChapter env st cid)

/-! ### BulkConversionScheduler (`handleConvertSelected` in `App.tsx`) -/

/-- The sort order of `.sort((a, b) => a.pageNumber - b.pageNumber)`:
ascending page number. -/
def pageLE (a b : Chapter) : Prop := a.pageNumber ≤ b.pageNumber

instance : DecidableRel pageLE := fun a b => Nat.decLe a.pageNumber b.pageNumber

instance : IsTotal Chapter pageLE := ⟨fun a b => Nat.le_total a.pageNumber b.pageNumber⟩

instance : IsTrans Chapter pageLE := ⟨fun _ _ _ => Nat.le_trans⟩

/-- `handleConvertSelected`: filter the chapter list to the selected
ids, sort ascending by `pageNumber` (JS `Array.prototype.sort` is
stable, and any stable sort under this comparator is
`insertionSort pageLE`), then for each chapter in turn — skipping those
whose snapshot status is `ready` or `converting` — run the whole
conversion attempt (to completion) before moving to the next.  Returns
the final chapter list and, per converted chapter in order, its id with
the synthesis requests its attempt issued. -/
def bulkConvert (envs : String → AttemptEnv) (st : List Chapter)
    (sel : String → Bool) : List Chapter × List (String × List (List Char)) :=
  (List.insertionSort pageLE (st.filter (fun c => sel c.id))).foldl
    (fun acc ch =>
      if ch.status = .ready ∨ ch.status = .converting then acc
      else (convertChapter (envs ch.id) acc.1 ch.id,
            acc.2 ++ [(ch.id, attemptRequests (envs ch.id))]))
    (st, [])

/-- The chapters the scheduler actually converts: the selected ones in
ascending page order, minus those skipped as `ready`/`converting`. -/
def scheduledChapters (st : List Chapter) (sel : String → Bool) : List Chapter :=
  (List.insertionSort pageLE (st.filter (fun c => sel c.id))).filter
    (fun c => decide (¬(c.status = .ready ∨ c.status = .converting)))

/-- Sample chapters for concrete scheduler runs. -/
def chapA : Chapter :=
  { id := "a", title := "A", pageNumber := 2, endPageNumber := 2, status := .pending }

def chapB : Chapter :=
  { id := "b", title := "B", pageNumber := 1, endPageNumber := 1, status := .pending }

def chapC : Chapter :=
  { id := "c", title := "C", pageNumber := 3, endPageNumber := 3, status := .ready }

/-! ### AudioDecoder (`decodeAudioData` in `src/utils/audio.ts`) -/

/-- Two bytes, little-endian, as one signed 16-bit value (how an
`Int16Array` views the underlying buffer on a little-endian platform). -/
def int16OfBytes (lo hi : Nat) : Int :=
  let u := lo % 256 + 256 * (hi % 256)
  if u < 32768 then (u : Int) else (u : Int) - 65536

/-- `new Int16Array(data.buffer)` element list (an odd trailing byte
cannot occur: the constructor throws first). -/
def toInt16List : List Nat → List Int
  | [] => []
  | [_] => []
  | lo :: hi :: rest => int16OfBytes lo hi :: toInt16List rest

/-- `decodeAudioData(data, ctx, sampleRate, numChannels)`.
`new Int16Array(data.buffer)` throws a `RangeError` when the byte
length is odd.  When `dataInt16.length / numChannels` is fractional,
`ctx.createBuffer` receives its integer part (WebIDL unsigned-long
conversion truncates), and the loop's final out-of-range iterations
read/write out of typed-array bounds — no-ops — so the effective frame
count is `⌊samples / numChannels⌋`.  `createBuffer` throws
`NotSupportedError` when any argument is outside its nominal range:
channel count outside `[1, 32]` (which covers `numChannels = 0`),
length zero, or a sample rate outside the supported range — modelled
here at the Web Audio baseline `[8000, 96000]` that every
implementation must support (the app always passes mono at 24000). -/
def decodeAudioData (data : List Nat) (sampleRate numChannels : Nat) :
    Except String AudioBuffer :=
  if data.length % 2 ≠ 0 then .error "RangeError: invalid typed array length"
  else
    let dataInt16 := toInt16List data
    let frameCount := dataInt16.length / numChannels
    if numChannels < 1 ∨ 32 < numChannels ∨ frameCount = 0
        ∨ sampleRate < 8000 ∨ 96000 < sampleRate then
      .error "NotSupportedError"
    else .ok
      { numberOfChannels := numChannels
        frameCount := frameCount
        sampleRate := sampleRate
        channelData := (List.range numChannels).map (fun channel =>
          (List.range frameCount).map (fun i =>
            ((dataInt16.getD (i * numChannels + channel) 0 : Int) : ℚ) / 32768)) }

/-- The signed 16-bit little-endian sample at index `k` of a byte
buffer, as the specification describes it. -/
def specSampleAt (data : List Nat) (k : Nat) : Int :=
  int16OfBytes (data.getD (2 * k) 0) (data.getD (2 * k + 1) 0)

/-- The buffer the specification describes for a successful decode:
`⌊(byte length / 2) / channels⌋` frames, each sample the signed 16-bit
little-endian value divided by `32768`, de-interleaved across
channels. -/
def decodedBuffer (data : List Nat) (sampleRate numChannels : Nat) : AudioBuffer :=
  { numberOfChannels := numChannels
    frameCount := data.length / 2 / numChannels
    sampleRate := sampleRate
    channelData := (List.range numChannels).map (fun channel =>
      (List.range (data.length / 2 / numChannels)).map (fun i =>
        ((specSampleAt data (i * numChannels + channel) : Int) : ℚ) / 32768)) }

/-! ### WavEncoder (`bufferToWav` in `src/utils/audio.ts`) -/

/-- `DataView.setUint16(pos, v, true)`: little-endian bytes, value
taken mod 2^16. -/
def u16le (v : Nat) : List Nat := [v % 256, v / 256 % 256]

/-- `DataView.setUint32(pos, v, true)`: little-endian bytes, value
taken mod 2^32. -/
def u32le (v : Nat) : List Nat :=
  [v % 256, v / 256 % 256, v / 65536 % 256, v / 16777216 % 256]

/-- `Math.max(-1, Math.min(1, sample))`. -/
def clampSample (q : ℚ) : ℚ := max (-1) (min 1 q)

/-- JS `| 0` on a number in the signed-32-bit range: truncation toward
zero. -/
def jsTrunc (q : ℚ) : Int := if q < 0 then ⌈q⌉ else ⌊q⌋

/-- The source's quantization:
`sample = Math.max(-1, Math.min(1, s)); (sample < 0 ? sample * 0x8000 : sample * 0x7FFF) | 0`
(`0x8000 = 32768`, `0x7FFF = 32767`). -/
def quantize (q : ℚ) : Int :=
  jsTrunc (if clampSample q < 0 then clampSample q * 32768 else clampSample q * 32767)

/-- The quantization as the specification words it: clamp to `[-1, 1]`,
scale by `32768` if negative or `32767` if non-negative, then truncate
to integer. -/
def specQuantize (q : ℚ) : Int :=
  if clampSample q < 0 then jsTrunc (clampSample q * 32768)
  else jsTrunc (clampSample q * 32767)

/-- `DataView.setInt16(pos, v, true)` for `v ∈ [-32768, 32767]`:
two's-complement little-endian bytes. -/
def i16le (v : Int) : List Nat := u16le (v % 65536).toNat

/-- Header bytes up to offset 22: `"RIFF"`, chunk size
(`length - 8`, and `length = frames * channels * 2 + 44`), `"WAVE"`,
`"fmt "`, sub-chunk size 16, PCM format tag 1. -/
def wavPrefix (b : AudioBuffer) : List Nat :=
  [82, 73, 70, 70]
  ++ u32le (b.frameCount * b.numberOfChannels * 2 + 36)
  ++ [87, 65, 86, 69]
  ++ [102, 109, 116, 32]
  ++ u32le 16 ++ u16le 1

/-- Header bytes at offsets 28–39: byte rate
(`sampleRate * 2 * numOfChan`), block align (`numOfChan * 2`), bits per
sample 16, `"data"`. -/
def wavMid (b : AudioBuffer) : List Nat :=
  u32le (b.sampleRate * 2 * b.numberOfChannels) ++ u16le (b.numberOfChannels * 2)
  ++ u16le 16 ++ [100, 97, 116, 97]

/-- The full 44-byte header written by `bufferToWav`: channel count at
offset 22, sample rate at 24, data-chunk size (`length - pos - 4`
with `pos = 40`, i.e. `frames * channels * 2`) at 40. -/
def wavHeader (b : AudioBuffer) : List Nat :=
  wavPrefix b ++ u16le b.numberOfChannels ++ u32le b.sampleRate ++ wavMid b
  ++ u32le (b.frameCount * b.numberOfChannels * 2)

/-- The interleaved PCM body: for each frame, for each channel, the
quantized sample as signed 16-bit little-endian.  (When a channel's
data array is shorter than the frame count the source reads
`undefined`, which quantizes through `NaN` and `| 0` to `0` — the same
value the `getD` fallback `0` quantizes to.) -/
def pcmData (b : AudioBuffer) : List Nat :=
  (List.range b.frameCount).flatMap (fun f =>
    (List.range b.numberOfChannels).flatMap (fun ch =>
      i16le (quantize ((b.channelData.getD ch []).getD f 0))))

/-- `bufferToWav`: the 44-byte header followed by the PCM body. -/
def bufferToWav (b : AudioBuffer) : List Nat := wavHeader b ++ pcmData b

/-- Parse an unsigned 16-bit little-endian value at a byte offset. -/
def readU16 (bytes : List Nat) (off : Nat) : Nat :=
  bytes.getD off 0 + 256 * bytes.getD (off + 1) 0

/-- Parse an unsigned 32-bit little-endian value at a byte offset. -/
def readU32 (bytes : List Nat) (off : Nat) : Nat :=
  bytes.getD off 0 + 256 * bytes.getD (off + 1) 0 + 65536 * bytes.getD (off + 2) 0
  + 16777216 * bytes.getD (off + 3) 0

/-- A sample stereo-free buffer for concrete WAV encodings. -/
def wavSample : AudioBuffer :=
  { numberOfChannels := 1, frameCount := 2, sampleRate := 24000
    channelData := [[1 / 2, -3 / 2]] }

/-! ### Chunker lemmas -/

theorem sentGo_flatten_of_ne (t : List Char) :
    ∀ cur b, cur ≠ [] → (sentGo t cur b).flatten = cur.reverse ++ t := by
  induction t with
  | nil =>
    intro cur b h
    cases cur with
    | nil => exact absurd rfl h
    | cons x xs => simp [sentGo]
  | cons c rest ih =>
    intro cur b h
    cases cur with
    | nil => exact absurd rfl h
    | cons x xs =>
      cases b with
      | false =>
        by_cases hc : isTerm c = true
        · rw [show sentGo (c :: rest) (x :: xs) false
              = sentGo rest (c :: x :: xs) true by simp [sentGo, hc]]
          rw [ih _ _ (by simp)]
          simp
        · rw [show sentGo (c :: rest) (x :: xs) false
              = sentGo rest (c :: x :: xs) false by simp [sentGo, hc]]
          rw [ih _ _ (by simp)]
          simp
      | true =>
        by_cases hc : isTerm c = true
        · rw [show sentGo (c :: rest) (x :: xs) true
              = sentGo rest (c :: x :: xs) true by simp [sentGo, hc]]
          rw [ih _ _ (by simp)]
          simp
        · rw [show sentGo (c :: rest) (x :: xs) true
              = (x :: xs).reverse :: sentGo rest [c] false by simp [sentGo, hc]]
          simp only [List.flatten_cons]
          rw [ih _ _ (by simp)]
          simp

theorem sentSplit_flatten (t : List Char) :
    (sentSplit t).flatten = t.dropWhile isTerm := by
  unfold sentSplit
  induction t with
  | nil => simp [sentGo]
  | cons c rest ih =>
    by_cases hc : isTerm c = true
    · rw [show sentGo (c :: rest) [] false = sentGo rest [] false by
        simp [sentGo, hc]]
      rw [ih, List.dropWhile_cons_of_pos hc]
    · rw [show sentGo (c :: rest) [] false = sentGo rest [c] false by
        simp [sentGo, hc]]
      rw [sentGo_flatten_of_ne _ _ _ (by simp)]
      simp [List.dropWhile_cons, hc]

theorem sentences_flatten_of_head (t : List Char)
    (h : ∀ c, t.head? = some c → isTerm c = false) :
    (sentences t).flatten = t := by
  unfold sentences
  cases t with
  | nil =>
    have : sentSplit ([] : List Char) = [] := by simp [sentSplit, sentGo]
    simp [this]
  | cons c rest =>
    have hc : isTerm c = false := h c rfl
    have hflat : (sentSplit (c :: rest)).flatten = c :: rest := by
      rw [sentSplit_flatten, List.dropWhile_cons_of_neg (by simp [hc])]
    split
    · next hnil => simp
    · exact hflat

theorem chunkAux_flatten (limit : Nat) :
    ∀ ss cur, (chunkAux limit cur ss).flatten = cur ++ ss.flatten := by
  intro ss
  induction ss with
  | nil =>
    intro cur
    by_cases h : cur = [] <;> simp [chunkAux, h]
  | cons s rest ih =>
    intro cur
    unfold chunkAux
    split
    · simp [ih]
    · simp [ih]

theorem chunkText_flatten (limit : Nat) (t : List Char) :
    (chunkText limit t).flatten = (sentences t).flatten := by
  unfold chunkText
  rw [chunkAux_flatten]
  rfl

/-- Size invariant of the greedy loop: any produced chunk either fits
the limit or is (verbatim) one of the input sentences. -/
theorem chunkAux_size (limit : Nat) :
    ∀ ss cur (S : List (List Char)),
      (∀ s ∈ ss, s ∈ S) →
      (cur.length ≤ limit ∨ cur ∈ S) →
      ∀ c ∈ chunkAux limit cur ss, c.length ≤ limit ∨ c ∈ S := by
  intro ss
  induction ss with
  | nil =>
    intro cur S _ hcur c hc
    unfold chunkAux at hc
    split at hc
    · simp at hc
    · simp at hc
      subst hc
      exact hcur
  | cons s rest ih =>
    intro cur S hss hcur c hc
    unfold chunkAux at hc
    split at hc
    · rcases List.mem_cons.mp hc with h | h
      · subst h
        exact hcur
      · exact ih s S (fun x hx => hss x (List.mem_cons_of_mem _ hx))
          (Or.inr (hss s (List.mem_cons_self _ _))) c h
    · next hle =>
      exact ih (cur ++ s) S (fun x hx => hss x (List.mem_cons_of_mem _ hx))
        (Or.inl (by omega)) c hc

/-- Every element of `sentences t` is nonempty as soon as `t` is. -/
theorem sentGo_mem_ne_nil (t : List Char) :
    ∀ cur b, (cur = [] ∨ cur ≠ []) → ∀ s ∈ sentGo t cur b, s ≠ [] := by
  induction t with
  | nil =>
    intro cur b _ s hs
    cases cur with
    | nil => simp [sentGo] at hs
    | cons x xs =>
      simp [sentGo] at hs
      subst hs
      simp
  | cons c rest ih =>
    intro cur b _ s hs
    cases cur with
    | nil =>
      by_cases hc : isTerm c = true
      · rw [show sentGo (c :: rest) [] b = sentGo rest [] b by simp [sentGo, hc]] at hs
        exact ih [] b (Or.inl rfl) s hs
      · rw [show sentGo (c :: rest) [] b = sentGo rest [c] false by simp [sentGo, hc]] at hs
        exact ih [c] false (Or.inr (by simp)) s hs
    | cons x xs =>
      cases b with
      | false =>
        by_cases hc : isTerm c = true
        · rw [show sentGo (c :: rest) (x :: xs) false = sentGo rest (c :: x :: xs) true by
            simp [sentGo, hc]] at hs
          exact ih _ true (Or.inr (by simp)) s hs
        · rw [show sentGo (c :: rest) (x :: xs) false = sentGo rest (c :: x :: xs) false by
            simp [sentGo, hc]] at hs
          exact ih _ false (Or.inr (by simp)) s hs
      | true =>
        by_cases hc : isTerm c = true
        · rw [show sentGo (c :: rest) (x :: xs) true = sentGo rest (c :: x :: xs) true by
            simp [sentGo, hc]] at hs
          exact ih _ true (Or.inr (by simp)) s hs
        · rw [show sentGo (c :: rest) (x :: xs) true
              = (x :: xs).reverse :: sentGo rest [c] false by simp [sentGo, hc]] at hs
          rcases List.mem_cons.mp hs with h | h
          · subst h
            simp
          · exact ih [c] false (Or.inr (by simp)) s h

theorem sentences_mem_ne_nil (t : List Char) (ht : t ≠ []) :
    ∀ s ∈ sentences t, s ≠ [] := by
  unfold sentences
  split
  · intro s hs
    simp at hs
    subst hs
    exact ht
  · intro s hs
    exact sentGo_mem_ne_nil t [] false (Or.inl rfl) s hs

/-- The chunk list is nonempty whenever all sentences are nonempty and
there is at least one sentence. -/
theorem chunkAux_ne_nil (limit : Nat) :
    ∀ ss cur, (∀ s ∈ ss, s ≠ []) → (cur ≠ [] ∨ ss ≠ []) →
      chunkAux limit cur ss ≠ [] := by
  intro ss
  induction ss with
  | nil =>
    intro cur _ h
    rcases h with h | h
    · simp [chunkAux, h]
    · exact absurd rfl h
  | cons s rest ih =>
    intro cur hss _
    unfold chunkAux
    split
    · simp
    · have hs : s ≠ [] := hss s (List.mem_cons_self _ _)
      apply ih (cur ++ s) (fun x hx => hss x (List.mem_cons_of_mem _ hx))
      left
      simp [hs]

theorem chunkText_ne_nil (limit : Nat) (t : List Char) (ht : t ≠ []) :
    chunkText limit t ≠ [] := by
  unfold chunkText
  apply chunkAux_ne_nil limit (sentences t) [] (sentences_mem_ne_nil t ht)
  right
  unfold sentences
  split
  · simp
  · next h => exact h

/-! ### Claim C1 -/

/-- C1 (counterexample): the claim "concatenating the chunk sequence
produced by the chunker yields exactly the original text" fails at the
concrete input `".a"` with the source's limit `4000`: the sentence
regex `[^.!?]+[.!?]*` assigns the leading `'.'` to no match, so the
chunker drops it. -/
theorem c1_concat_counterexample :
    (chunkText TEXT_CHUNK_SIZE ['.', 'a']).flatten ≠ ['.', 'a'] := by
  decide

/-- C1 (amended): for every character limit and every input text, no
produced chunk exceeds the limit in length unless it is verbatim one of
the split-off sentences (in particular a single sentence exceeding the
limit); and whenever the text does not begin with a sentence-terminator
character (`.`, `!`, `?`) — the only case the counterexample excludes —
concatenating the produced chunks yields exactly the original text. -/
theorem c1_chunker_amended (limit : Nat) (t : List Char) :
    (∀ c ∈ chunkText limit t, c.length ≤ limit ∨ (c ∈ sentences t ∧ limit < c.length)) ∧
    ((∀ c, t.head? = some c → isTerm c = false) →
      (chunkText limit t).flatten = t) := by
  constructor
  · intro c hc
    by_cases hlen : c.length ≤ limit
    · exact Or.inl hlen
    · have := chunkAux_size limit (sentences t) [] (sentences t)
        (fun s hs => hs) (Or.inl (by simp)) c hc
      rcases this with h | h
      · exact Or.inl h
      · exact Or.inr ⟨h, by omega⟩
  · intro hhead
    rw [chunkText_flatten, sentences_flatten_of_head t hhead]

/-- C1 witness: the amended theorem applied at `"Hi. Yo."` with limit 4. -/
theorem c1_chunker_amended_witness :
    (∀ c ∈ chunkText 4 ['H', 'i', '.', ' ', 'Y', 'o', '.'],
        c.length ≤ 4 ∨ (c ∈ sentences ['H', 'i', '.', ' ', 'Y', 'o', '.'] ∧ 4 < c.length)) ∧
    (chunkText 4 ['H', 'i', '.', ' ', 'Y', 'o', '.']).flatten
      = ['H', 'i', '.', ' ', 'Y', 'o', '.'] := by
  have h := c1_chunker_amended 4 ['H', 'i', '.', ' ', 'Y', 'o', '.']
  exact ⟨h.1, h.2 (by decide)⟩

/-! ### OutlineResolver lemmas -/

/-- Every resolved page number is 1-based (`pageIndex + 1 ≥ 1`). -/
theorem processOutline_pages_pos :
    ∀ (l : List OutlineItem), ∀ p ∈ processOutline l, 1 ≤ p.2
  | [] => by simp [processOutline]
  | .mk t pg items :: rest => by
    intro p hp
    rw [processOutline.eq_def] at hp
    simp only at hp
    rcases List.mem_append.mp hp with h | h
    · cases pg with
      | none => simp at h
      | some idx =>
        simp at h
        subst h
        simp
    · rcases List.mem_append.mp h with h | h
      · exact processOutline_pages_pos items p h
      · exact processOutline_pages_pos rest p h

theorem preChapterList_length (processed : List (String × Nat)) (numPages : Nat)
    (ids : List String) :
    (preChapterList processed numPages ids).length = processed.length := by
  simp [preChapterList]

theorem endPageAt_of_lt (processed : List (String × Nat)) (numPages i : Nat)
    (hi : i + 1 < processed.length) :
    endPageAt processed numPages i = (processed.getD (i + 1) ("", 0)).2 - 1 := by
  have hsome : processed[i + 1]? = some (processed.getD (i + 1) ("", 0)) := by
    rw [List.getD_eq_getElem?_getD, List.getElem?_eq_getElem hi]
    rfl
  rw [endPageAt, hsome]

theorem endPageAt_last (processed : List (String × Nat)) (numPages i : Nat)
    (hi : processed.length ≤ i + 1) :
    endPageAt processed numPages i = numPages := by
  have hnone : processed[i + 1]? = none := List.getElem?_eq_none hi
  rw [endPageAt, hnone]

theorem preChapterList_getD (processed : List (String × Nat)) (numPages : Nat)
    (ids : List String) (i : Nat) (h : i < processed.length) :
    (preChapterList processed numPages ids).getD i chapterDefault =
      { id := ids.getD i ""
        title := (processed.getD i ("", 0)).1
        pageNumber := (processed.getD i ("", 0)).2
        endPageNumber := endPageAt processed numPages i
        status := .pending } := by
  unfold preChapterList
  rw [List.getD_eq_getElem?_getD, List.getElem?_map, List.getElem?_range h]
  rfl

/-! ### Claim C3 -/

/-- C3: for every resolved outline (depth-first flattened with 1-based
page numbers), entry `i`'s `endPageNumber` is entry `i+1`'s
`pageNumber - 1`, the final entry's is the document's last page;
entries with `endPageNumber < pageNumber` are excluded, so every
resulting chapter satisfies `pageNumber ≤ endPageNumber`; and start
pages `[1, 5, 10]` in a 12-page document yield end pages `[4, 9, 12]`. -/
theorem c3_end_page_resolution (items : List OutlineItem) (numPages : Nat)
    (ids : List String) :
    (∀ p ∈ processOutline items, 1 ≤ p.2) ∧
    (∀ i, i + 1 < (preChapterList (processOutline items) numPages ids).length →
      ((preChapterList (processOutline items) numPages ids).getD i chapterDefault).endPageNumber
        = ((preChapterList (processOutline items) numPages ids).getD (i + 1)
            chapterDefault).pageNumber - 1) ∧
    ((processOutline items) ≠ [] →
      ((preChapterList (processOutline items) numPages ids).getD
          ((processOutline items).length - 1) chapterDefault).endPageNumber = numPages) ∧
    (∀ ch ∈ preChapterList (processOutline items) numPages ids,
      ch.endPageNumber < ch.pageNumber →
        ch ∉ chapterList (processOutline items) numPages ids) ∧
    (∀ ch ∈ chapterList (processOutline items) numPages ids,
      ch.pageNumber ≤ ch.endPageNumber) ∧
    ((chapterList [("a", 1), ("b", 5), ("c", 10)] 12 ["i1", "i2", "i3"]).map
        (fun ch => (ch.pageNumber, ch.endPageNumber)) = [(1, 4), (5, 9), (10, 12)]) := by
  refine ⟨processOutline_pages_pos items, ?_, ?_, ?_, ?_,
    by simp [chapterList, preChapterList, endPageAt, List.range_succ]⟩
  · intro i hi
    rw [preChapterList_length] at hi
    rw [preChapterList_getD _ _ _ _ (by omega), preChapterList_getD _ _ _ _ (by omega)]
    exact endPageAt_of_lt _ _ _ hi
  · intro hne
    have hlen : 0 < (processOutline items).length := List.length_pos.mpr hne
    rw [preChapterList_getD _ _ _ _ (by omega)]
    exact endPageAt_last _ _ _ (by omega)
  · intro ch hch hlt
    intro hmem
    rw [chapterList, List.mem_filter] at hmem
    have := of_decide_eq_true hmem.2
    omega
  · intro ch hch
    rw [chapterList, List.mem_filter] at hch
    exact of_decide_eq_true hch.2

/-- C3 witness: the theorem applied to the concrete outline resolving to
start pages `[1, 5, 10]` in a 12-page document. -/
theorem c3_end_page_resolution_witness :
    ((chapterList [("a", 1), ("b", 5), ("c", 10)] 12 ["i1", "i2", "i3"]).map
        (fun ch => (ch.pageNumber, ch.endPageNumber)) = [(1, 4), (5, 9), (10, 12)]) ∧
    ((preChapterList (processOutline
        [.mk "a" (some 0) [], .mk "b" (some 4) [], .mk "c" (some 9) []]) 12
        ["i1", "i2", "i3"]).getD 0 chapterDefault).endPageNumber
      = ((preChapterList (processOutline
        [.mk "a" (some 0) [], .mk "b" (some 4) [], .mk "c" (some 9) []]) 12
        ["i1", "i2", "i3"]).getD 1 chapterDefault).pageNumber - 1 := by
  have h := c3_end_page_resolution
    [.mk "a" (some 0) [], .mk "b" (some 4) [], .mk "c" (some 9) []] 12 ["i1", "i2", "i3"]
  refine ⟨h.2.2.2.2.2, h.2.1 0 ?_⟩
  rw [preChapterList_length]
  show 0 + 1 < (processOutline [.mk "a" (some 0) [], .mk "b" (some 4) [], .mk "c" (some 9) []]).length
  simp [processOutline]

/-! ### Orchestrator lemmas -/

theorem applyFinal_id (fin : AttemptFinal) (c : Chapter) :
    (applyFinal fin c).id = c.id := by
  cases fin <;> rfl

theorem applyFinal_progress (fin : AttemptFinal) (c : Chapter) :
    (applyFinal fin c).progress = c.progress := by
  cases fin <;> rfl

theorem attemptUpdates_preserve_id (env : AttemptEnv) :
    ∀ u ∈ attemptUpdates env, ∀ c, (u c).id = c.id := by
  intro u hu c
  rw [attemptUpdates] at hu
  rcases List.mem_cons.mp hu with h | h
  · subst h
    rfl
  · rcases List.mem_append.mp h with h | h
    · rcases List.mem_map.mp h with ⟨p, _, rfl⟩
      rfl
    · simp at h
      subst h
      exact applyFinal_id _ _

theorem foldl_updateChapter (cid : String) :
    ∀ us : List (Chapter → Chapter), (∀ u ∈ us, ∀ c, (u c).id = c.id) →
      ∀ st : List Chapter,
        us.foldl (fun s u => updateChapter s cid u) st
          = st.map (fun c => if c.id = cid then us.foldl (fun x u => u x) c else c) := by
  intro us
  induction us with
  | nil =>
    intro _ st
    simp
  | cons u us ih =>
    intro hid st
    rw [List.foldl_cons, ih (fun v hv => hid v (List.mem_cons_of_mem _ hv))]
    rw [updateChapter, List.map_map]
    apply List.map_congr_left
    intro c _
    by_cases h : c.id = cid
    · have hu : (u c).id = cid := by rw [hid u (List.mem_cons_self _ _) c, h]
      simp [Function.comp, h, hu]
    · simp [Function.comp, h]

theorem convertChapter_eq_map (env : AttemptEnv) (st : List Chapter) (cid : String) :
    convertChapter env st cid
      = st.map (fun c => if c.id = cid then applyAttempt env c else c) := by
  rw [convertChapter, foldl_updateChapter cid _ (attemptUpdates_preserve_id env) st]
  rfl

theorem midFold_setProgress (ps : List Int) :
    ∀ c : Chapter,
      (ps.map setProgress).foldl (fun x u => u x) c
        = { c with progress := midProgress ps c.progress } := by
  induction ps with
  | nil =>
    intro c
    cases c
    rfl
  | cons p ps ih =>
    intro c
    rw [List.map_cons, List.foldl_cons, ih]
    rfl

theorem applyAttempt_eq (env : AttemptEnv) (c : Chapter) :
    applyAttempt env c
      = applyFinal (attemptFinal env)
          { c with status := .converting, chError := none,
                   progress := midProgress (attemptProgs env) (some 0) } := by
  rw [applyAttempt, attemptUpdates, List.foldl_cons, List.foldl_append]
  rw [midFold_setProgress]
  rfl

theorem scanl_buffer_preserved :
    ∀ us : List (Chapter → Chapter),
      (∀ u ∈ us, ∀ x : Chapter, (u x).audioBuffer = x.audioBuffer) →
      ∀ c : Chapter, ∀ x ∈ us.scanl (fun a u => u a) c,
        x.audioBuffer = c.audioBuffer := by
  intro us
  induction us with
  | nil =>
    intro _ c x hx
    simp [List.scanl] at hx
    subst hx
    rfl
  | cons u us ih =>
    intro h c x hx
    simp only [List.scanl] at hx
    rcases List.mem_cons.mp hx with h1 | h1
    · subst h1
      rfl
    · rw [ih (fun v hv => h v (List.mem_cons_of_mem _ hv)) (u c) x h1]
      exact h u (List.mem_cons_self _ _) c

theorem scanl_progress_append (fin : AttemptFinal) :
    ∀ ps : List Int, ∀ x : Chapter,
      (((ps.map setProgress) ++ [applyFinal fin]).scanl (fun a u => u a) x).map
          (fun y => y.progress)
        = (x.progress :: ps.map some) ++ [midProgress ps x.progress] := by
  intro ps
  induction ps with
  | nil =>
    intro x
    simp [List.scanl, midProgress, applyFinal_progress]
  | cons p ps ih =>
    intro x
    simp only [List.map_cons, List.cons_append, List.scanl, List.append_eq]
    rw [ih (setProgress p x)]
    simp [midProgress, setProgress]

theorem progressTrace_eq (env : AttemptEnv) (c : Chapter) :
    progressTrace env c
      = c.progress :: ((some 0 :: (attemptProgs env).map some)
          ++ [midProgress (attemptProgs env) (some 0)]) := by
  rw [progressTrace, attemptStates, attemptUpdates]
  simp only [List.scanl, List.map_cons]
  rw [scanl_progress_append]
  rfl

theorem range_map_roundPct_succ (total i m : Nat) :
    (List.range (m + 1)).map (fun j => roundPct (i + 1 + j) total)
      = roundPct (i + 1) total
        :: (List.range m).map (fun j => roundPct (i + 1 + 1 + j) total) := by
  rw [List.range_succ_eq_map, List.map_cons, List.map_map]
  have hhead : roundPct (i + 1 + 0) total = roundPct (i + 1) total := by
    congr 1
  have htail : (List.range m).map ((fun j => roundPct (i + 1 + j) total) ∘ Nat.succ)
      = (List.range m).map (fun j => roundPct (i + 1 + 1 + j) total) := by
    apply List.map_congr_left
    intro a _
    show roundPct (i + 1 + Nat.succ a) total = roundPct (i + 1 + 1 + a) total
    congr 1
    omega
  rw [hhead, htail]

theorem range_map_roundPct_zero (total m : Nat) :
    (List.range m).map (fun j => roundPct (0 + 1 + j) total)
      = (List.range m).map (fun j => roundPct (j + 1) total) := by
  apply List.map_congr_left
  intro a _
  congr 1
  omega

theorem runChunks_all_ok (outcomes : Nat → ChunkOutcome) (total : Nat) :
    ∀ (chunks : List (List Char)) (i : Nat),
      (∀ j, j < chunks.length → ∃ b, outcomes (i + j) = .ok b) →
      ∃ bufs, runChunks outcomes total chunks i
        = ((List.range chunks.length).map (fun j => roundPct (i + 1 + j) total),
            chunks, .ok bufs) := by
  intro chunks
  induction chunks with
  | nil =>
    intro i _
    exact ⟨[], rfl⟩
  | cons c rest ih =>
    intro i hok
    obtain ⟨b, hb⟩ := hok 0 (by simp)
    rw [Nat.add_zero] at hb
    obtain ⟨bufs, hrec⟩ := ih (i + 1) (fun j hj => by
      obtain ⟨b', hb'⟩ := hok (j + 1) (by simp [Nat.succ_lt_succ hj])
      exact ⟨b', by rw [← hb']; congr 1; omega⟩)
    refine ⟨b :: bufs, ?_⟩
    rw [runChunks, hb, hrec]
    simp only [List.length_cons, List.range_succ_eq_map, List.map_cons, List.map_map,
      Nat.add_zero]
    have h2 : List.map ((fun j => roundPct (i + 1 + j) total) ∘ Nat.succ)
          (List.range rest.length)
        = List.map (fun j => roundPct (i + 1 + 1 + j) total) (List.range rest.length) := by
      apply List.map_congr_left
      intro a _
      show roundPct (i + 1 + Nat.succ a) total = roundPct (i + 1 + 1 + a) total
      congr 1
      omega
    rw [h2]

theorem runChunks_fail (outcomes : Nat → ChunkOutcome) (total : Nat) :
    ∀ (chunks : List (List Char)) (i k : Nat) (m : String),
      k < chunks.length →
      (∀ j, j < k → ∃ b, outcomes (i + j) = .ok b) →
      outcomes (i + k) = .fail m →
      runChunks outcomes total chunks i
        = ((List.range k).map (fun j => roundPct (i + 1 + j) total),
           chunks.take (k + 1), .error m) := by
  intro chunks
  induction chunks with
  | nil =>
    intro i k m hk _ _
    simp at hk
  | cons c rest ih =>
    intro i k m hk hok hfail
    cases k with
    | zero =>
      rw [Nat.add_zero] at hfail
      rw [runChunks, hfail]
      rfl
    | succ k =>
      obtain ⟨b, hb⟩ := hok 0 (by omega)
      rw [Nat.add_zero] at hb
      have hrec := ih (i + 1) k m (by simpa using hk)
        (fun j hj => by
          obtain ⟨b', hb'⟩ := hok (j + 1) (by omega)
          exact ⟨b', by rw [← hb']; congr 1; omega⟩)
        (by rw [← hfail]; congr 1; omega)
      rw [runChunks, hb, hrec, range_map_roundPct_succ]
      rfl

/-- For any outcomes, the chunk loop's recorded progress values are
`roundPct` of the first `m` completions for some `m` bounded by the
chunk count (how many chunks completed before a failure, if any). -/
theorem runChunks_fst (outcomes : Nat → ChunkOutcome) (total : Nat) :
    ∀ (chunks : List (List Char)) (i : Nat),
      ∃ m, m ≤ chunks.length ∧
        (runChunks outcomes total chunks i).1
          = (List.range m).map (fun j => roundPct (i + 1 + j) total) := by
  intro chunks
  induction chunks with
  | nil =>
    intro i
    exact ⟨0, by simp, rfl⟩
  | cons c rest ih =>
    intro i
    cases hoc : outcomes i with
    | fail m =>
      refine ⟨0, by simp, ?_⟩
      rw [runChunks, hoc]
      rfl
    | ok b =>
      obtain ⟨m, hm, hps⟩ := ih (i + 1)
      refine ⟨m + 1, by simpa using Nat.succ_le_succ hm, ?_⟩
      rw [range_map_roundPct_succ]
      rcases hrun : runChunks outcomes total rest (i + 1) with ⟨ps, reqs, r⟩
      rw [hrun] at hps
      have hps2 : ps = (List.range m).map (fun j => roundPct (i + 1 + 1 + j) total) :=
        hps
      cases r with
      | ok bs =>
        rw [runChunks, hoc, hrun]
        show roundPct (i + 1) total :: ps
          = roundPct (i + 1) total
            :: (List.range m).map (fun j => roundPct (i + 1 + 1 + j) total)
        rw [hps2]
      | error me =>
        rw [runChunks, hoc, hrun]
        show roundPct (i + 1) total :: ps
          = roundPct (i + 1) total
            :: (List.range m).map (fun j => roundPct (i + 1 + 1 + j) total)
        rw [hps2]

theorem attemptScript_of_extraction_error (env : AttemptEnv) (m : String)
    (h : env.extraction = .error m) :
    attemptScript env = ([], [], .failed m) := by
  rw [attemptScript, h]

theorem attemptScript_of_whitespace (env : AttemptEnv) (text : List Char)
    (h : env.extraction = .ok text) (hws : text.all isJsWhitespace = true) :
    attemptScript env = ([], [], .readyEmpty) := by
  rw [attemptScript, h]
  simp [hws]

theorem roundPct_self (n : Nat) (hn : 0 < n) : roundPct n n = 100 := by
  rw [roundPct]
  have h : ((n : ℚ) / n) = 1 := div_self (by positivity)
  rw [h]
  apply Int.floor_eq_iff.mpr
  constructor <;> norm_num

theorem roundPct_zero (n : Nat) : roundPct 0 n = 0 := by
  rw [roundPct]
  simp only [Nat.cast_zero, zero_div, zero_mul, zero_add]
  apply Int.floor_eq_iff.mpr
  constructor <;> norm_num

theorem roundPct_mono (n : Nat) (hn : 0 < n) {k k' : Nat} (h : k ≤ k') :
    roundPct k n ≤ roundPct k' n := by
  apply Int.floor_mono
  have hq : (0 : ℚ) < (n : ℚ) := by positivity
  have hkk : (k : ℚ) ≤ (k' : ℚ) := by exact_mod_cast h
  have hdiv : (k : ℚ) / n ≤ (k' : ℚ) / n := by gcongr
  linarith

theorem roundPct_chain (n m : Nat) (hn : 0 < n) :
    List.Chain' (fun a b => a ≤ b)
      ((0 : ℤ) :: (List.range m).map (fun i => roundPct (i + 1) n)) := by
  have h0 : (0 : ℤ) :: (List.range m).map (fun i => roundPct (i + 1) n)
      = (List.range (m + 1)).map (fun k => roundPct k n) := by
    rw [List.range_succ_eq_map, List.map_cons, List.map_map]
    rw [roundPct_zero]
    rfl
  rw [h0, List.chain'_map]
  apply (List.chain'_range_succ _ m).mpr
  intro j _
  exact roundPct_mono n hn (Nat.le_succ j)

theorem midProgress_append (ps : List Int) (p : Int) (o : Option Int) :
    midProgress (ps ++ [p]) o = some p := by
  rw [midProgress, List.foldl_append]
  rfl

/-! ### Claim C7 -/

/-- C7: when the extracted chapter text is empty or whitespace-only,
the attempt submits no synthesis request and ends with the chapter
`ready`, holding the minimal one-frame placeholder buffer
(`createBuffer(1, 1, 24000)`) and `duration = 0`; the state update maps
every other chapter unchanged. -/
theorem c7_whitespace_short_circuit (env : AttemptEnv) (st : List Chapter)
    (cid : String) (text : List Char)
    (hext : env.extraction = .ok text) (hws : text.all isJsWhitespace = true) :
    attemptRequests env = [] ∧
    (∀ c : Chapter,
      (applyAttempt env c).status = .ready ∧
      (applyAttempt env c).audioBuffer = some (createBuffer 1 1 24000) ∧
      (applyAttempt env c).duration = some 0) ∧
    convertChapter env st cid
      = st.map (fun c => if c.id = cid then applyAttempt env c else c) := by
  have hs := attemptScript_of_whitespace env text hext hws
  have hfin : attemptFinal env = .readyEmpty := by rw [attemptFinal, hs]
  refine ⟨by rw [attemptRequests, hs], ?_, convertChapter_eq_map env st cid⟩
  intro c
  rw [applyAttempt_eq, hfin]
  exact ⟨rfl, rfl, rfl⟩

/-- C7 witness: a whitespace-only extraction. -/
theorem c7_whitespace_short_circuit_witness :
    attemptRequests ⟨.ok [' '], fun _ => .fail "x"⟩ = [] ∧
    (applyAttempt ⟨.ok [' '], fun _ => .fail "x"⟩ chapterDefault).status = .ready ∧
    (applyAttempt ⟨.ok [' '], fun _ => .fail "x"⟩ chapterDefault).duration = some 0 := by
  have h := c7_whitespace_short_circuit ⟨.ok [' '], fun _ => .fail "x"⟩ [] "" [' ']
    rfl (by decide)
  exact ⟨h.1, (h.2.1 chapterDefault).1, (h.2.1 chapterDefault).2.2⟩

/-! ### Claim C10 -/

/-- C10 (frame property): a conversion attempt targeting chapter id
`cid` leaves every chapter whose id differs from `cid` entirely
unchanged (the whole record, hence every field), whatever the
attempt's outcome: each state update rewrites only matching entries. -/
theorem c10_other_chapters_unchanged (env : AttemptEnv) (st : List Chapter)
    (cid : String) (i : Nat)
    (h : (st.getD i chapterDefault).id ≠ cid) :
    (convertChapter env st cid).getD i chapterDefault = st.getD i chapterDefault := by
  rw [convertChapter_eq_map]
  rcases Nat.lt_or_ge i st.length with hlt | hge
  · have hmlt : i < (st.map (fun c => if c.id = cid then applyAttempt env c else c)).length := by
      simpa using hlt
    rw [List.getD_eq_getElem _ _ hmlt, List.getElem_map]
    rw [List.getD_eq_getElem _ _ hlt] at h ⊢
    rw [if_neg h]
  · have h1 : st.getD i chapterDefault = chapterDefault := List.getD_eq_default _ _ hge
    have h2 : (st.map (fun c => if c.id = cid then applyAttempt env c else c)).getD i
        chapterDefault = chapterDefault :=
      List.getD_eq_default _ _ (by simpa using hge)
    rw [h1, h2]

/-- C10 witness. -/
theorem c10_other_chapters_unchanged_witness :
    (convertChapter ⟨.error "x", fun _ => .fail "y"⟩ [chapterDefault] "b").getD 0
        chapterDefault
      = [chapterDefault].getD 0 chapterDefault :=
  c10_other_chapters_unchanged ⟨.error "x", fun _ => .fail "y"⟩ [chapterDefault] "b" 0
    (by decide)

/-! ### Claim C4 -/

/-- C4: when some chunk's synthesis or decode fails (first failure at
chunk index `k`), the attempt submits exactly the chunks up to and
including `k` — none of the remaining chunks; the chapter's
`audioBuffer` field keeps its initial value in every state of the
attempt (so no audio decoded by this attempt — in particular an earlier
chunk's — is ever stored or exposed, and the partial accumulator is
discarded); the attempt ends with status `error` carrying the
failure's message; and the state update maps other chapters unchanged. -/
theorem c4_chunk_failure_aborts (env : AttemptEnv) (text : List Char)
    (k : Nat) (m : String)
    (hext : env.extraction = .ok text) (hws : text.all isJsWhitespace = false)
    (hk : k < (chunkText TEXT_CHUNK_SIZE text).length)
    (hok : ∀ j, j < k → ∃ b, env.outcomes j = .ok b)
    (hfail : env.outcomes k = .fail m) :
    attemptRequests env = (chunkText TEXT_CHUNK_SIZE text).take (k + 1) ∧
    (∀ c : Chapter, ∀ x ∈ attemptStates env c, x.audioBuffer = c.audioBuffer) ∧
    (∀ c : Chapter, (applyAttempt env c).status = .error ∧
      (applyAttempt env c).chError = some m) ∧
    (∀ st cid, convertChapter env st cid
      = st.map (fun c => if c.id = cid then applyAttempt env c else c)) := by
  have hrun := runChunks_fail env.outcomes
    (chunkText TEXT_CHUNK_SIZE text).length (chunkText TEXT_CHUNK_SIZE text) 0 k m hk
    (fun j hj => by rw [Nat.zero_add]; exact hok j hj)
    (by rw [Nat.zero_add]; exact hfail)
  have hscript : attemptScript env
      = ((List.range k).map
          (fun j => roundPct (0 + 1 + j) (chunkText TEXT_CHUNK_SIZE text).length),
         (chunkText TEXT_CHUNK_SIZE text).take (k + 1), .failed m) := by
    rw [attemptScript, hext]
    simp only [hws]
    rw [hrun]
    rfl
  have hfin : attemptFinal env = .failed m := by rw [attemptFinal, hscript]
  refine ⟨by rw [attemptRequests, hscript], ?_, ?_,
    fun st cid => convertChapter_eq_map env st cid⟩
  · intro c
    rw [attemptStates]
    apply scanl_buffer_preserved
    intro u hu x
    rw [attemptUpdates] at hu
    rcases List.mem_cons.mp hu with h | h
    · subst h
      rfl
    · rcases List.mem_append.mp h with h | h
      · rcases List.mem_map.mp h with ⟨p, _, rfl⟩
        rfl
      · simp at h
        subst h
        rw [hfin]
        rfl
  · intro c
    rw [applyAttempt_eq, hfin]
    exact ⟨rfl, rfl⟩

/-- C4 witness: synthesis fails on the very first chunk. -/
theorem c4_chunk_failure_aborts_witness :
    attemptRequests ⟨.ok ['a'], fun _ => .fail "boom"⟩
      = (chunkText TEXT_CHUNK_SIZE ['a']).take 1 ∧
    (applyAttempt ⟨.ok ['a'], fun _ => .fail "boom"⟩ chapterDefault).status = .error ∧
    (applyAttempt ⟨.ok ['a'], fun _ => .fail "boom"⟩ chapterDefault).chError
      = some "boom" := by
  have h := c4_chunk_failure_aborts ⟨.ok ['a'], fun _ => .fail "boom"⟩ ['a'] 0 "boom"
    rfl (by decide) (by decide)
    (fun j hj => absurd hj (by omega)) rfl
  exact ⟨h.1, (h.2.2.1 chapterDefault).1, (h.2.2.1 chapterDefault).2⟩

/-! ### Claim C6 -/

/-- On the chunked path the progress values are the chunk loop's first
component. -/
theorem attemptProgs_of_chunks (env : AttemptEnv) (text : List Char)
    (hext : env.extraction = .ok text) (hws : text.all isJsWhitespace = false) :
    attemptProgs env
      = (runChunks env.outcomes (chunkText TEXT_CHUNK_SIZE text).length
          (chunkText TEXT_CHUNK_SIZE text) 0).1 := by
  rw [attemptProgs, attemptScript, hext]
  simp only [hws]
  rcases runChunks env.outcomes (chunkText TEXT_CHUNK_SIZE text).length
      (chunkText TEXT_CHUNK_SIZE text) 0 with ⟨ps, reqs, r⟩
  cases r <;> rfl

/-- C6: within any single conversion attempt — whatever its outcome —
progress is reset to 0 at the start (the first update of every attempt
writes `progress = 0`) and the values written afterwards are exactly
`attemptProgs env`, the final `ready`/`error` update preserving the
last of them; from the initial 0 on, the written values are
non-decreasing; the extraction-error and empty-text paths write
nothing beyond the reset; when the first `k` chunks succeed and chunk
`k` fails, the written values are `round(100 * j / total)` for
`j = 1..k`; and when every chunk succeeds they are
`round(100 * j / total)` for `j = 1..total`, the last being exactly
100. -/
theorem c6_progress_monotone (env : AttemptEnv) :
    (∀ c : Chapter, progressTrace env c
      = c.progress :: some 0 :: ((attemptProgs env).map some
          ++ [midProgress (attemptProgs env) (some 0)])) ∧
    List.Chain' (fun a b => a ≤ b) ((0 : ℤ) :: attemptProgs env) ∧
    (∀ m, env.extraction = .error m → attemptProgs env = []) ∧
    (∀ text, env.extraction = .ok text → text.all isJsWhitespace = true →
      attemptProgs env = []) ∧
    (∀ text k m, env.extraction = .ok text → text.all isJsWhitespace = false →
      k < (chunkText TEXT_CHUNK_SIZE text).length →
      (∀ j, j < k → ∃ b, env.outcomes j = .ok b) → env.outcomes k = .fail m →
      attemptProgs env = (List.range k).map
        (fun i => roundPct (i + 1) (chunkText TEXT_CHUNK_SIZE text).length)) ∧
    (∀ text, env.extraction = .ok text → text.all isJsWhitespace = false →
      (∀ j, j < (chunkText TEXT_CHUNK_SIZE text).length →
        ∃ b, env.outcomes j = .ok b) →
      attemptProgs env = (List.range (chunkText TEXT_CHUNK_SIZE text).length).map
        (fun i => roundPct (i + 1) (chunkText TEXT_CHUNK_SIZE text).length) ∧
      midProgress (attemptProgs env) (some 0) = some 100 ∧
      roundPct (chunkText TEXT_CHUNK_SIZE text).length
        (chunkText TEXT_CHUNK_SIZE text).length = 100) := by
  refine ⟨fun c => progressTrace_eq env c, ?_, ?_, ?_, ?_, ?_⟩
  · rcases hext : env.extraction with m | text
    · rw [attemptProgs, attemptScript_of_extraction_error env m hext]
      simp
    · by_cases hws : text.all isJsWhitespace = true
      · rw [attemptProgs, attemptScript_of_whitespace env text hext hws]
        simp
      · have hwsf : text.all isJsWhitespace = false := by
          revert hws
          cases text.all isJsWhitespace <;> simp
        have htne : text ≠ [] := fun h => by rw [h] at hwsf; simp at hwsf
        have hnpos : 0 < (chunkText TEXT_CHUNK_SIZE text).length :=
          List.length_pos.mpr (chunkText_ne_nil _ _ htne)
        obtain ⟨m, _, hps⟩ := runChunks_fst env.outcomes
          (chunkText TEXT_CHUNK_SIZE text).length (chunkText TEXT_CHUNK_SIZE text) 0
        rw [attemptProgs_of_chunks env text hext hwsf, hps, range_map_roundPct_zero]
        exact roundPct_chain _ m hnpos
  · intro m hext
    rw [attemptProgs, attemptScript_of_extraction_error env m hext]
  · intro text hext hws
    rw [attemptProgs, attemptScript_of_whitespace env text hext hws]
  · intro text k m hext hws hk hok hfail
    have hrun := runChunks_fail env.outcomes (chunkText TEXT_CHUNK_SIZE text).length
      (chunkText TEXT_CHUNK_SIZE text) 0 k m hk
      (fun j hj => by rw [Nat.zero_add]; exact hok j hj)
      (by rw [Nat.zero_add]; exact hfail)
    rw [attemptProgs_of_chunks env text hext hws, hrun]
    exact range_map_roundPct_zero _ _
  · intro text hext hws hall
    have htne : text ≠ [] := fun h => by rw [h] at hws; simp at hws
    have hnpos : 0 < (chunkText TEXT_CHUNK_SIZE text).length :=
      List.length_pos.mpr (chunkText_ne_nil _ _ htne)
    obtain ⟨bufs, hrun⟩ := runChunks_all_ok env.outcomes
      (chunkText TEXT_CHUNK_SIZE text).length (chunkText TEXT_CHUNK_SIZE text) 0
      (fun j hj => by rw [Nat.zero_add]; exact hall j hj)
    have hprogs : attemptProgs env
        = (List.range (chunkText TEXT_CHUNK_SIZE text).length).map
            (fun j => roundPct (j + 1) (chunkText TEXT_CHUNK_SIZE text).length) := by
      rw [attemptProgs_of_chunks env text hext hws, hrun]
      exact range_map_roundPct_zero _ _
    have h100 := roundPct_self _ hnpos
    have hmid : midProgress (attemptProgs env) (some 0) = some 100 := by
      rw [hprogs]
      obtain ⟨nm, hn⟩ : ∃ nm, (chunkText TEXT_CHUNK_SIZE text).length = nm + 1 :=
        ⟨(chunkText TEXT_CHUNK_SIZE text).length - 1, by omega⟩
      rw [hn, List.range_succ, List.map_append]
      rw [List.map_singleton, midProgress_append]
      rw [← hn, h100]
    exact ⟨hprogs, hmid, h100⟩

/-- C6 witness: a one-chunk attempt whose chunk succeeds. -/
theorem c6_progress_monotone_witness :
    progressTrace ⟨.ok ['a'], fun _ => .ok (createBuffer 1 1 24000)⟩ chapterDefault
      = [none, some 0, some (roundPct 1 1), some 100] ∧
    roundPct 1 1 = 100 := by
  have h := c6_progress_monotone ⟨.ok ['a'], fun _ => .ok (createBuffer 1 1 24000)⟩
  have hfull := h.2.2.2.2.2 ['a'] rfl (by decide)
    (fun j hj => ⟨createBuffer 1 1 24000, rfl⟩)
  have hlen : (chunkText TEXT_CHUNK_SIZE ['a']).length = 1 := by decide
  rw [hlen] at hfull
  refine ⟨?_, hfull.2.2⟩
  rw [h.1 chapterDefault, hfull.2.1, hfull.1]
  simp [List.range_succ, chapterDefault]

/-! ### Claim C2 -/

/-- C2: in every state reachable from chapter-list creation by complete
conversion attempts — each issued for a `pending` or `error` chapter
(the only chapters the bulk scheduler converts and the retry affordance
targets), with arbitrary success or failure outcomes — a chapter's
`audioBuffer` is present exactly when its `status` is `ready`. -/
theorem c2_buffer_iff_ready (st : List Chapter) (h : Reachable st) :
    ∀ c ∈ st, c.audioBuffer.isSome = true ↔ c.status = .ready := by
  induction h with
  | init processed numPages ids =>
    intro c hc
    rw [chapterList, List.mem_filter] at hc
    rw [preChapterList, List.mem_map] at hc
    obtain ⟨⟨i, _, rfl⟩, _⟩ := hc
    simp
  | step st cid env hst hguard ih =>
    intro c hc
    rw [convertChapter_eq_map] at hc
    rcases List.mem_map.mp hc with ⟨c0, hc0, rfl⟩
    by_cases hid : c0.id = cid
    · rw [if_pos hid]
      have hbuf : c0.audioBuffer = none := by
        apply Option.not_isSome_iff_eq_none.mp
        intro hsome
        have hready := (ih c0 hc0).mp hsome
        rcases hguard c0 hc0 hid with hs | hs <;> rw [hs] at hready <;> simp at hready
      rw [applyAttempt_eq]
      cases attemptFinal env with
      | failed m => simp [applyFinal, hbuf]
      | readyEmpty => simp [applyFinal]
      | readyFull b => simp [applyFinal]
    · rw [if_neg hid]
      exact ih c0 hc0

/-! ### Claim C5 -/

theorem bulk_foldl_skip (envs : String → AttemptEnv) :
    ∀ (l : List Chapter) (acc : List Chapter × List (String × List (List Char))),
      l.foldl
        (fun acc ch =>
          if ch.status = .ready ∨ ch.status = .converting then acc
          else (convertChapter (envs ch.id) acc.1 ch.id,
                acc.2 ++ [(ch.id, attemptRequests (envs ch.id))])) acc
      = (l.filter (fun c => decide (¬(c.status = .ready ∨ c.status = .converting)))).foldl
          (fun acc ch => (convertChapter (envs ch.id) acc.1 ch.id,
            acc.2 ++ [(ch.id, attemptRequests (envs ch.id))])) acc := by
  intro l
  induction l with
  | nil =>
    intro acc
    rfl
  | cons ch l ih =>
    intro acc
    by_cases h : ch.status = .ready ∨ ch.status = .converting
    · rw [List.foldl_cons, if_pos h, List.filter_cons_of_neg (by simp [h]), ih]
    · rw [List.foldl_cons, if_neg h, List.filter_cons_of_pos (by simp [h]),
        List.foldl_cons, ih]

theorem bulk_foldl_pair (envs : String → AttemptEnv) :
    ∀ (l : List Chapter) (s0 : List Chapter) (t0 : List (String × List (List Char))),
      l.foldl (fun acc ch => (convertChapter (envs ch.id) acc.1 ch.id,
          acc.2 ++ [(ch.id, attemptRequests (envs ch.id))])) (s0, t0)
        = (l.foldl (fun s ch => convertChapter (envs ch.id) s ch.id) s0,
           t0 ++ l.map (fun ch => (ch.id, attemptRequests (envs ch.id)))) := by
  intro l
  induction l with
  | nil =>
    intro s0 t0
    simp
  | cons ch l ih =>
    intro s0 t0
    rw [List.foldl_cons, ih, List.foldl_cons]
    simp

/-- C5: the bulk scheduler converts exactly the selected chapters that
are not already `ready`/`converting`, in ascending `pageNumber` order,
running each chapter's whole attempt (a sequential fold, one attempt
completing before the next starts) and recording its requests in that
order; which chapters are processed, and in which order, is
independent of any attempt's outcomes — one chapter's failure never
aborts the scheduler. -/
theorem c5_bulk_scheduler (envs : String → AttemptEnv) (st : List Chapter)
    (sel : String → Bool) :
    (bulkConvert envs st sel).2
      = (scheduledChapters st sel).map
          (fun ch => (ch.id, attemptRequests (envs ch.id))) ∧
    (bulkConvert envs st sel).1
      = (scheduledChapters st sel).foldl
          (fun s ch => convertChapter (envs ch.id) s ch.id) st ∧
    List.Pairwise (fun a b => a.pageNumber ≤ b.pageNumber)
      (scheduledChapters st sel) ∧
    (∀ ch ∈ st, sel ch.id = true → ch.status = .ready ∨ ch.status = .converting →
      ch ∉ scheduledChapters st sel) ∧
    (∀ envs' : String → AttemptEnv,
      (bulkConvert envs' st sel).2.map Prod.fst
        = (bulkConvert envs st sel).2.map Prod.fst) := by
  have key : ∀ es : String → AttemptEnv,
      bulkConvert es st sel
        = ((scheduledChapters st sel).foldl
            (fun s ch => convertChapter (es ch.id) s ch.id) st,
           (scheduledChapters st sel).map
            (fun ch => (ch.id, attemptRequests (es ch.id)))) := by
    intro es
    rw [bulkConvert, bulk_foldl_skip es, bulk_foldl_pair es]
    simp [scheduledChapters]
  refine ⟨?_, ?_, ?_, ?_, ?_⟩
  · rw [key envs]
  · rw [key envs]
  · exact List.Pairwise.sublist (List.filter_sublist _)
      (List.sorted_insertionSort pageLE _)
  · intro ch hch hsel hstat hmem
    rw [scheduledChapters, List.mem_filter] at hmem
    exact of_decide_eq_true hmem.2 hstat
  · intro envs'
    rw [key envs, key envs']
    simp [List.map_map]

/-- C5 witness: pending chapters at pages 2 and 1 plus a `ready` one;
the scheduler processes ids in page order `["b", "a"]`, skipping the
`ready` chapter. -/
theorem c5_bulk_scheduler_witness :
    (bulkConvert (fun _ => ⟨.error "x", fun _ => .fail "y"⟩) [chapA, chapB, chapC]
        (fun _ => true)).2.map Prod.fst = ["b", "a"] := by
  have h := c5_bulk_scheduler (fun _ => ⟨.error "x", fun _ => .fail "y"⟩)
    [chapA, chapB, chapC] (fun _ => true)
  rw [h.1]
  simp only [List.map_map]
  show (scheduledChapters [chapA, chapB, chapC] (fun _ => true)).map
      (fun ch => ch.id) = ["b", "a"]
  decide

/-- C2 witness: the invariant at a freshly created one-chapter list. -/
theorem c2_buffer_iff_ready_witness :
    sampleChapter.audioBuffer.isSome = true ↔ sampleChapter.status = .ready := by
  apply c2_buffer_iff_ready (chapterList [("t", 1)] 3 ["x"])
    (Reachable.init [("t", 1)] 3 ["x"])
  simp [chapterList, preChapterList, endPageAt, List.range_succ, sampleChapter]

/-! ### WavEncoder lemmas -/

theorem wavPrefix_length (b : AudioBuffer) : (wavPrefix b).length = 22 := by
  simp [wavPrefix, u32le, u16le]

theorem wavMid_length (b : AudioBuffer) : (wavMid b).length = 12 := by
  simp [wavMid, u32le, u16le]

theorem wavHeader_length (b : AudioBuffer) : (wavHeader b).length = 44 := by
  simp [wavHeader, wavPrefix, wavMid, u32le, u16le]

theorem pcmData_length (b : AudioBuffer) :
    (pcmData b).length = b.frameCount * b.numberOfChannels * 2 := by
  have hinner : ∀ f, ((List.range b.numberOfChannels).flatMap (fun ch =>
      i16le (quantize ((b.channelData.getD ch []).getD f 0)))).length
      = b.numberOfChannels * 2 := by
    intro f
    rw [List.length_flatMap]
    simp only [Function.comp_def]
    have hconst : List.map
        (fun ch => (i16le (quantize ((b.channelData.getD ch []).getD f 0))).length)
        (List.range b.numberOfChannels)
        = List.map (fun _ => 2) (List.range b.numberOfChannels) :=
      List.map_congr_left (fun ch _ => rfl)
    rw [hconst, List.map_const', List.sum_replicate, smul_eq_mul, List.length_range]
  rw [pcmData, List.length_flatMap]
  simp only [Function.comp_def]
  have houter : List.map (fun f => ((List.range b.numberOfChannels).flatMap (fun ch =>
      i16le (quantize ((b.channelData.getD ch []).getD f 0)))).length)
      (List.range b.frameCount)
      = List.map (fun _ => b.numberOfChannels * 2) (List.range b.frameCount) :=
    List.map_congr_left (fun f _ => hinner f)
  rw [houter, List.map_const', List.sum_replicate, smul_eq_mul, List.length_range]
  ring

theorem getD_append_of_le (A rest : List Nat) (i : Nat) (h : A.length ≤ i) :
    (A ++ rest).getD i 0 = rest.getD (i - A.length) 0 := by
  rw [List.getD_eq_getElem?_getD, List.getElem?_append_right h,
    ← List.getD_eq_getElem?_getD]

theorem readU16_shift (A rest : List Nat) (off : Nat) (h : A.length = off) :
    readU16 (A ++ rest) off = readU16 rest 0 := by
  subst h
  rw [readU16, readU16]
  rw [getD_append_of_le _ _ _ (Nat.le_refl _), getD_append_of_le _ _ _ (by omega)]
  have e0 : A.length - A.length = 0 := by omega
  have e1 : A.length + 1 - A.length = 1 := by omega
  rw [e0, e1]

theorem readU32_shift (A rest : List Nat) (off : Nat) (h : A.length = off) :
    readU32 (A ++ rest) off = readU32 rest 0 := by
  subst h
  rw [readU32, readU32]
  rw [getD_append_of_le _ _ _ (Nat.le_refl _), getD_append_of_le _ _ _ (by omega),
    getD_append_of_le _ _ _ (by omega), getD_append_of_le _ _ _ (by omega)]
  have e0 : A.length - A.length = 0 := by omega
  have e1 : A.length + 1 - A.length = 1 := by omega
  have e2 : A.length + 2 - A.length = 2 := by omega
  have e3 : A.length + 3 - A.length = 3 := by omega
  rw [e0, e1, e2, e3]

theorem readU16_u16le (v : Nat) (rest : List Nat) (h : v < 65536) :
    readU16 (u16le v ++ rest) 0 = v := by
  simp [readU16, u16le]
  omega

theorem readU32_u32le (v : Nat) (rest : List Nat) (h : v < 4294967296) :
    readU32 (u32le v ++ rest) 0 = v := by
  simp [readU32, u32le]
  omega

theorem quantize_eq_specQuantize (q : ℚ) : quantize q = specQuantize q := by
  rw [quantize, specQuantize, apply_ite jsTrunc]

/-! ### Claim C8 -/

/-- C8: the WAV encoder emits a 44-byte header followed by the
interleaved 16-bit PCM samples; parsing the header recovers the channel
count (offset 22), the sample rate (offset 24) and the data-chunk size
(offset 40), hence the sample count (`dataSize / 2 = frames * channels`);
and the byte stream after the header is exactly the per-frame,
per-channel encoding of each float sample clamped to `[-1, 1]`, scaled
by 32768 if negative or 32767 if non-negative, and truncated to
integer.  The recovery hypotheses only require the fields to fit their
16 and 32 bit header slots. -/
theorem c8_wav_encoder (b : AudioBuffer)
    (hch : b.numberOfChannels < 65536) (hrate : b.sampleRate < 4294967296)
    (hsize : b.frameCount * b.numberOfChannels * 2 < 4294967296) :
    (wavHeader b).length = 44 ∧
    (bufferToWav b).length = 44 + b.frameCount * b.numberOfChannels * 2 ∧
    readU16 (bufferToWav b) 22 = b.numberOfChannels ∧
    readU32 (bufferToWav b) 24 = b.sampleRate ∧
    readU32 (bufferToWav b) 40 = b.frameCount * b.numberOfChannels * 2 ∧
    readU32 (bufferToWav b) 40 / 2 = b.frameCount * b.numberOfChannels ∧
    (bufferToWav b).drop 44
      = (List.range b.frameCount).flatMap (fun f =>
          (List.range b.numberOfChannels).flatMap (fun ch =>
            i16le (specQuantize ((b.channelData.getD ch []).getD f 0)))) := by
  have hsplit : bufferToWav b
      = wavPrefix b ++ (u16le b.numberOfChannels ++ (u32le b.sampleRate
          ++ (wavMid b ++ (u32le (b.frameCount * b.numberOfChannels * 2)
            ++ pcmData b)))) := by
    simp [bufferToWav, wavHeader, List.append_assoc]
  refine ⟨wavHeader_length b, ?_, ?_, ?_, ?_, ?_, ?_⟩
  · rw [bufferToWav, List.length_append, wavHeader_length, pcmData_length]
  · rw [hsplit, readU16_shift _ _ _ (wavPrefix_length b)]
    exact readU16_u16le _ _ hch
  · rw [hsplit, ← List.append_assoc,
      readU32_shift _ _ _ (by rw [List.length_append, wavPrefix_length]; rfl)]
    exact readU32_u32le _ _ hrate
  · rw [hsplit, ← List.append_assoc, ← List.append_assoc, ← List.append_assoc,
      readU32_shift _ _ _ (by
        simp [List.length_append, wavPrefix_length, wavMid_length, u16le, u32le])]
    exact readU32_u32le _ _ hsize
  · rw [hsplit, ← List.append_assoc, ← List.append_assoc, ← List.append_assoc,
      readU32_shift _ _ _ (by
        simp [List.length_append, wavPrefix_length, wavMid_length, u16le, u32le]),
      readU32_u32le _ _ hsize]
    omega
  · rw [bufferToWav, List.drop_left' (wavHeader_length b)]
    simp [pcmData, quantize_eq_specQuantize]

/-- C8 witness: a mono 2-frame buffer with samples `1/2` and `-3/2`. -/
theorem c8_wav_encoder_witness :
    readU16 (bufferToWav wavSample) 22 = 1 ∧
    readU32 (bufferToWav wavSample) 24 = 24000 ∧
    readU32 (bufferToWav wavSample) 40 = 4 := by
  have h := c8_wav_encoder wavSample (by decide) (by decide) (by decide)
  exact ⟨h.2.2.1, h.2.2.2.1, h.2.2.2.2.1⟩

/-! ### AudioDecoder lemmas -/

theorem toInt16List_length : ∀ data : List Nat,
    (toInt16List data).length = data.length / 2
  | [] => rfl
  | [_] => by simp [toInt16List]
  | lo :: hi :: rest => by
    rw [show toInt16List (lo :: hi :: rest) = int16OfBytes lo hi :: toInt16List rest
      from rfl]
    simp only [List.length_cons, toInt16List_length rest]
    omega

theorem toInt16List_getD : ∀ data : List Nat, data.length % 2 = 0 → ∀ k,
    (toInt16List data).getD k 0 = specSampleAt data k
  | [], _, k => by
    simp [toInt16List, specSampleAt, int16OfBytes]
  | [x], h, _ => by
    simp at h
  | lo :: hi :: rest, h, k => by
    have hr : rest.length % 2 = 0 := by
      simp only [List.length_cons] at h
      omega
    cases k with
    | zero => rfl
    | succ k =>
      rw [show toInt16List (lo :: hi :: rest) = int16OfBytes lo hi :: toInt16List rest
        from rfl]
      rw [List.getD_cons_succ, toInt16List_getD rest hr k]
      rw [specSampleAt, specSampleAt]
      rw [show 2 * (k + 1) = 2 * k + 1 + 1 from by omega, List.getD_cons_succ,
        List.getD_cons_succ]
      rw [show 2 * k + 1 + 1 + 1 = 2 * k + 1 + 1 + 1 from rfl]
      rw [show (2 * k + 1 + 1 + 1 : Nat) = (2 * k + 1) + 1 + 1 from rfl]
      rw [List.getD_cons_succ, List.getD_cons_succ]

/-! ### Claim C9 -/

/-- C9 (counterexample): the claim "the decoder fails exactly when the
byte length is not evenly divisible by `channels * 2`" is false at a
6-byte buffer with 2 channels: `6 % 4 ≠ 0`, yet the decode succeeds
(with one truncated frame), because `new Int16Array` only rejects odd
byte lengths and the fractional frame count is floored. -/
theorem c9_divisibility_counterexample :
    (6 : Nat) % (2 * 2) ≠ 0 ∧
    decodeAudioData [0, 0, 0, 0, 0, 0] 24000 2
      = .ok (decodedBuffer [0, 0, 0, 0, 0, 0] 24000 2) := by
  constructor
  · decide
  · rfl

/-- C9 (amended): the decoder fails exactly when the byte length is odd
(`Int16Array` rejects it), or `createBuffer` rejects an argument
outside its nominal range: the floored frame count
`(byteLength / 2) / channels` is zero, the channel count lies outside
`[1, 32]` (covering `channels = 0`), or the sample rate lies outside
the supported range (modelled at the Web Audio baseline
`[8000, 96000]`); otherwise it succeeds with `⌊samples / channels⌋`
frames, each sample the signed 16-bit little-endian value divided by
`32768`, de-interleaved across channels. -/
theorem c9_decode_amended (data : List Nat) (sampleRate numChannels : Nat) :
    ((∃ e, decodeAudioData data sampleRate numChannels = .error e)
      ↔ data.length % 2 ≠ 0 ∨ numChannels < 1 ∨ 32 < numChannels
        ∨ data.length / 2 / numChannels = 0
        ∨ sampleRate < 8000 ∨ 96000 < sampleRate) ∧
    (data.length % 2 = 0 → 1 ≤ numChannels → numChannels ≤ 32 →
      data.length / 2 / numChannels ≠ 0 →
      8000 ≤ sampleRate → sampleRate ≤ 96000 →
      decodeAudioData data sampleRate numChannels
        = .ok (decodedBuffer data sampleRate numChannels)) := by
  have hok : data.length % 2 = 0 → 1 ≤ numChannels → numChannels ≤ 32 →
      data.length / 2 / numChannels ≠ 0 →
      8000 ≤ sampleRate → sampleRate ≤ 96000 →
      decodeAudioData data sampleRate numChannels
        = .ok (decodedBuffer data sampleRate numChannels) := by
    intro h2 hc1 hc2 hf hr1 hr2
    rw [decodeAudioData]
    rw [if_neg (by omega)]
    simp only [toInt16List_length]
    rw [if_neg (by
      push_neg
      exact ⟨by omega, by omega, hf, by omega, by omega⟩)]
    rw [decodedBuffer]
    congr 1
    congr 1
    apply List.map_congr_left
    intro channel _
    apply List.map_congr_left
    intro i _
    rw [toInt16List_getD data h2]
  constructor
  · constructor
    · intro ⟨e, he⟩
      by_contra hcon
      push_neg at hcon
      obtain ⟨h2, hc1, hc2, hf, hr1, hr2⟩ := hcon
      rw [hok h2 hc1 hc2 hf hr1 hr2] at he
      cases he
    · intro h
      by_cases h2 : data.length % 2 = 0
      · rcases h with h | h
        · exact absurd h2 h
        · refine ⟨"NotSupportedError", ?_⟩
          rw [decodeAudioData, if_neg (by omega)]
          simp only [toInt16List_length]
          rw [if_pos h]
      · refine ⟨"RangeError: invalid typed array length", ?_⟩
        rw [decodeAudioData, if_pos h2]
  · exact hok

/-- C9 witness: four bytes, one channel, a supported sample rate — an
exact two-frame decode. -/
theorem c9_decode_amended_witness :
    decodeAudioData [1, 0, 255, 255] 24000 1
      = .ok (decodedBuffer [1, 0, 255, 255] 24000 1) :=
  (c9_decode_amended [1, 0, 255, 255] 24000 1).2 (by decide) (by decide) (by decide)
    (by decide) (by decide) (by decide)

end Convertisseur
